import Mathlib

/-!
# Verification of the NBA prop analyzer core

A shallow embedding, in Lean 4, of the fusion / projection / ranking / staking
engine of the NBA-Predictor repository (`prop_analyzer.py` and the formula
layer of `app.py`), together with proofs settling the specification claims.

Modelling conventions:
* Python floats are modelled as rationals (`ℚ`); the transcendental hit-rate
  estimator (`math.exp`) is modelled over the reals (`ℝ`).
* `round(x, k)` is modelled as `round (x * 10^k) / 10^k` with Mathlib's
  round-half-up `round`.  (Python uses banker's rounding on binary floats;
  the two agree except at exact decimal ties, which none of the claims touch.)
* Python strings are modelled through their character lists; `str.lower()` is
  ASCII lowercasing, which is `Char.toLower` pointwise.
* Code that can raise (`ZeroDivisionError`) is modelled with `Option`,
  `none` marking the raise.
* Python dicts (insertion-ordered) are modelled as association lists.
-/

set_option linter.unusedVariables false

/-! ## Python-style primitives -/

/-- Python `round(x, 1)` on a rational. -/
def pyRound1 (x : ℚ) : ℚ := ((round (x * 10) : ℤ) : ℚ) / 10

/-- Python `str.lower()` on a character list (ASCII lowercasing, `Char.toLower`
pointwise, exactly what `str.lower` does on the ASCII names handled here). -/
def pyLower (l : List Char) : List Char := l.map Char.toLower

/-- Python `str.strip()` on a character list: drop leading and trailing
whitespace. -/
def pyStrip (l : List Char) : List Char :=
  ((l.dropWhile Char.isWhitespace).reverse.dropWhile Char.isWhitespace).reverse

/-- Python `needle in hay` (substring containment) on character lists. -/
def strContains (hay needle : List Char) : Bool :=
  (List.range (hay.length + 1)).any (fun i => needle.isPrefixOf (hay.drop i))

/-- Python `str.split()` (split on whitespace runs, discarding empty pieces). -/
def pySplitWS (l : List Char) : List (List Char) :=
  (l.splitOnP Char.isWhitespace).filter (fun w => !w.isEmpty)

/-- Python `s.split()[-1]`.  The default `[]` is never reached on the call
sites below (Python would raise `IndexError` there, but those branches are
only evaluated on non-empty stripped strings, whose `split()` is non-empty). -/
def pyLastToken (l : List Char) : List Char := (pySplitWS l).getLastD []

/-- Python `s[0]`.  The default is never reached on the call sites below
(Python would raise `IndexError` on an empty string, but the branch is only
evaluated on non-empty strings). -/
def pyFirstChar (l : List Char) : Char := l.headD 'a'

/-! ## prop_analyzer.py: configuration and data model -/

/-- `MIN_GAMES = 2`: minimum games in the recent window to consider a player. -/
def MIN_GAMES : ℤ := 2

/-- `TOP_PLAYS_PER_CATEGORY = 8`. -/
def TOP_PLAYS_PER_CATEGORY : ℕ := 8

/-- The `Play` dataclass of `prop_analyzer.py`. -/
structure Play where
  player : String
  team : String
  position : String
  opponent : String
  stat : String
  dvp_value : ℚ
  tier : String
  recent_avg : Option ℚ := none
  games_played : Option ℤ := none
  mpg : Option ℚ := none
  score : ℚ := 0
  line : Option ℚ := none
  edge_pct : Option ℚ := none
  projected : Option ℚ := none
  adjusted_dvp : Option ℚ := none
deriving DecidableEq, Repr

/-! ## prop_analyzer.py: identity resolver -/

/-- `normalize_name`: lowercase, strip, then strip the known trailing
injury-status tokens in this fixed order, then strip again. -/
def pySuffixes : List (List Char) :=
  [" off inj".data, " inj".data, " out".data, " q".data, " gtd".data]

/-- The suffix-stripping loop of `normalize_name`: each suffix in
`pySuffixes`, in order, is removed once if the current name ends with it. -/
def stripSuffixes (l : List Char) : List Char :=
  pySuffixes.foldl
    (fun name suf =>
      if suf.isSuffixOf name then name.take (name.length - suf.length) else name)
    l

/-- `normalize_name(name)` from `prop_analyzer.py`. -/
def normalize_name (name : String) : String :=
  ⟨pyStrip (stripSuffixes (pyStrip (pyLower name.data)))⟩

/-- The fuzzy-matching loop of `find_player_stats`: walk the entries in
iteration order; for each entry first try substring containment in either
direction, then same-last-token plus same-first-character. -/
def fuzzy_find {α : Type} (key : String) : List (String × α) → Option α
  | [] => none
  | (db_key, stats) :: rest =>
    if strContains db_key.data key.data || strContains key.data db_key.data then
      some stats
    else if pyLastToken key.data = pyLastToken db_key.data
        ∧ pyFirstChar key.data = pyFirstChar db_key.data then
      some stats
    else fuzzy_find key rest

/-- `find_player_stats(player_name, stats_db)`: direct normalized lookup,
then the fuzzy loop. -/
def find_player_stats {α : Type} (player_name : String)
    (stats_db : List (String × α)) : Option α :=
  let key := normalize_name player_name
  match stats_db.lookup key with
  | some stats => some stats
  | none => fuzzy_find key stats_db

/-! ## prop_analyzer.py: projection and scoring -/

/-- `calculate_projection` from `prop_analyzer.py`.  The `tier` argument is
accepted and ignored, as in the source. -/
def calculate_projection (recent_avg dvp_value : ℚ) (tier : String)
    (player_mpg : Option ℚ := none) (total_position_minutes : ℚ := 48) : ℚ :=
  let RECENT_WEIGHT : ℚ := 0.6
  let DVP_WEIGHT : ℚ := 0.4
  let adjusted_dvp :=
    match player_mpg with
    | some m =>
      if 0 < m then dvp_value * min (m / total_position_minutes) 1
      else dvp_value * (30 / total_position_minutes)
    | none => dvp_value * (30 / total_position_minutes)
  pyRound1 (RECENT_WEIGHT * recent_avg + DVP_WEIGHT * adjusted_dvp)

/-- The performance ratio computed inside `score_play`: for tier `"WORST"`
(over candidates) `recent_avg / dvp_value`, otherwise
`dvp_value / max(recent_avg, 0.1)`; in both branches the source guards
`dvp_value > 0` and falls back to `1.0`. -/
def performance_ratio (tier : String) (recent_avg dvp_value : ℚ) : ℚ :=
  if tier = "WORST" then
    if 0 < dvp_value then recent_avg / dvp_value else 1
  else
    if 0 < dvp_value then dvp_value / max recent_avg (1/10) else 1

/-- `score_play` from `prop_analyzer.py` (its returned value; the function
also caches `adjusted_dvp` and `projected` on the play, which does not affect
the returned score). -/
def score_play (p : Play) : ℚ :=
  match p.recent_avg, p.games_played with
  | some recent_avg, some games_played =>
    if games_played < MIN_GAMES then 0
    else
      let games_factor := min ((games_played : ℚ) / 5) 1
      pyRound1 (performance_ratio p.tier recent_avg p.dvp_value * games_factor * 100)
  | _, _ => 0

/-! ## prop_analyzer.py: diversified top-N selection

The Python `diversify` keeps `stat_counts` and `player_counts` dicts; at every
point of the loop they equal the corresponding occurrence counts inside
`result` (a count is bumped exactly when a play is appended), so the embedding
computes them from `result` directly. -/

/-- `p.player.lower()`, the per-player key used by `diversify`. -/
def playerKey (p : Play) : String := ⟨pyLower p.player.data⟩

/-- Number of plays in `l` whose player key is `k`. -/
def keyCount (k : String) (l : List Play) : ℕ := (l.map playerKey).count k

/-- Number of plays in `l` whose stat is `s`. -/
def statCount (s : String) (l : List Play) : ℕ := (l.map Play.stat).count s

/-- First pass of `diversify`: walk the sorted list, skip a play whose player
is at the cap, admit it while its stat has been used fewer than 3 times, stop
once `n` plays are admitted. -/
def diversify_pass1 (n max_player : ℕ) : List Play → List Play → List Play
  | result, [] => result
  | result, p :: rest =>
    if n ≤ result.length then result
    else if 0 < max_player ∧ max_player ≤ keyCount (playerKey p) result then
      diversify_pass1 n max_player result rest
    else if statCount p.stat result < 3 then
      diversify_pass1 n max_player (result ++ [p]) rest
    else diversify_pass1 n max_player result rest

/-- Overflow pass of `diversify`: walk the list again, admitting plays not yet
in `result` that still satisfy the per-player cap, until `n` is reached. -/
def diversify_pass2 (n max_player : ℕ) : List Play → List Play → List Play
  | result, [] => result
  | result, p :: rest =>
    if n ≤ result.length then result
    else if p ∈ result then diversify_pass2 n max_player result rest
    else if 0 < max_player ∧ max_player ≤ keyCount (playerKey p) result then
      diversify_pass2 n max_player result rest
    else diversify_pass2 n max_player (result ++ [p]) rest

/-- `diversify(plays_list, n, max_player)` from `filter_top_plays`. -/
def diversify (plays_list : List Play) (n : ℕ) (max_player : ℕ := 0) : List Play :=
  let result := diversify_pass1 n max_player [] plays_list
  let result :=
    if result.length < n then diversify_pass2 n max_player result plays_list
    else result
  result.take n

/-- Result shape of `filter_top_plays`. -/
structure TopPlays where
  overs : List Play
  unders : List Play

/-- The validity filter of `filter_top_plays`: recent data present and at
least `MIN_GAMES` games. -/
def validPlay (p : Play) : Bool :=
  p.recent_avg.isSome &&
    match p.games_played with
    | some g => decide (MIN_GAMES ≤ g)
    | none => false

/-- `filter_top_plays` from `prop_analyzer.py`: filter valid plays, split by
tier, sort each side by score descending (Python `list.sort` is stable;
`insertionSort` with the non-strict relation below is the same stable
descending sort), then diversify each side. -/
def filter_top_plays (plays : List Play)
    (top_n : ℕ := TOP_PLAYS_PER_CATEGORY) (max_per_player : ℕ := 0) : TopPlays :=
  let valid_plays := plays.filter validPlay
  let overs := valid_plays.filter (fun p => p.tier == "WORST")
  let unders := valid_plays.filter (fun p => p.tier == "BEST")
  let overs := overs.insertionSort (fun a b => b.score ≤ a.score)
  let unders := unders.insertionSort (fun a b => b.score ≤ a.score)
  { overs := diversify overs top_n max_per_player
    unders := diversify unders top_n max_per_player }

/-! ## prop_analyzer.py: interactive edge calculation -/

/-- Result shape of `prop_analyzer.calculate_edge`. -/
structure PropEdgeResult where
  edge_pct : Option ℚ
  diff : Option ℚ
  projected : Option ℚ
  recommendation : String
deriving DecidableEq, Repr

/-- `calculate_edge(play, line)` from `prop_analyzer.py`. -/
def calculate_edge (play : Play) (line : ℚ) : PropEdgeResult :=
  let compute : ℚ → PropEdgeResult := fun projected =>
    let diff := projected - line
    let edge_pct := if 0 < line then diff / line * 100 else 0
    if play.tier = "WORST" then
      let recommendation :=
        if 8 < edge_pct then "STRONG OVER ✓✓"
        else if 3 < edge_pct then "LEAN OVER ✓"
        else if -3 < edge_pct then "TOSS-UP"
        else "PASS (line too high)"
      { edge_pct := some edge_pct, diff := some diff,
        projected := some projected, recommendation := recommendation }
    else
      let edge_pct := -edge_pct
      let recommendation :=
        if 8 < edge_pct then "STRONG UNDER ✓✓"
        else if 3 < edge_pct then "LEAN UNDER ✓"
        else if -3 < edge_pct then "TOSS-UP"
        else "PASS (line too low)"
      { edge_pct := some edge_pct, diff := some diff,
        projected := some projected, recommendation := recommendation }
  match play.projected with
  | some projected => compute projected
  | none =>
    match play.recent_avg with
    | none =>
      { edge_pct := none, diff := none, projected := none,
        recommendation := "NO DATA" }
    | some recent_avg => compute recent_avg

/-! ## app.py: odds, Kelly and edge utilities -/

namespace App

/-- `american_to_decimal` from `app.py`.  On input `0` the source evaluates
`100 / abs(0)` and raises `ZeroDivisionError`; the embedding returns `none`
there. -/
def american_to_decimal (american_odds : ℤ) : Option ℚ :=
  if 0 < american_odds then some ((american_odds : ℚ) / 100 + 1)
  else if american_odds = 0 then none
  else some (100 / ((|american_odds| : ℤ) : ℚ) + 1)

/-- `decimal_to_implied_prob` from `app.py`. -/
def decimal_to_implied_prob (decimal_odds : ℚ) : ℚ :=
  if decimal_odds ≤ 0 then 0.5 else 1 / decimal_odds

/-- Result shape of `app.calculate_kelly`. -/
structure KellyResult where
  kelly_full : ℚ
  kelly_adjusted : ℚ
  fraction_used : ℚ
deriving DecidableEq, Repr

/-- The clamped full-Kelly fraction computed inside `calculate_kelly`:
`(b·p − q)/b` for `b = decimal_odds − 1` when `b > 0` (else `0`), clamped to
`[0, 0.25]`. -/
def kelly_full_frac (win_prob decimal_odds : ℚ) : ℚ :=
  let b := decimal_odds - 1
  let p := win_prob
  let q := 1 - p
  let kelly_full := if 0 < b then (b * p - q) / b else 0
  max 0 (min kelly_full 0.25)

/-- `calculate_kelly` from `app.py` (the returned values are percentages). -/
def calculate_kelly (win_prob decimal_odds : ℚ) (fraction : ℚ := 0.25) :
    KellyResult :=
  let kelly_full := kelly_full_frac win_prob decimal_odds
  let kelly_adjusted := kelly_full * fraction
  { kelly_full := kelly_full * 100
    kelly_adjusted := kelly_adjusted * 100
    fraction_used := fraction }

/-- Result shape of `app.calculate_edge`. -/
structure EdgeResult where
  edge_pct : ℚ
  recommendation : String
  color : String
deriving DecidableEq, Repr

/-- `calculate_edge(projected, line, direction)` from `app.py`.  The `try`
block never raises on numeric input, so the `except` branch is dead. -/
def calculate_edge (projected line : ℚ) (direction : String) : EdgeResult :=
  if line ≤ 0 ∨ projected < 0 then
    { edge_pct := 0, recommendation := "Invalid line", color := "gray" }
  else
    let diff := projected - line
    let edge_pct := if 0 < line then diff / line * 100 else 0
    if direction = "OVER" then
      if 8 < edge_pct then
        { edge_pct := edge_pct, recommendation := "STRONG OVER ✓✓", color := "green" }
      else if 3 < edge_pct then
        { edge_pct := edge_pct, recommendation := "LEAN OVER ✓", color := "blue" }
      else if -3 < edge_pct then
        { edge_pct := edge_pct, recommendation := "TOSS-UP", color := "orange" }
      else
        { edge_pct := edge_pct, recommendation := "PASS", color := "gray" }
    else
      let edge_pct := -edge_pct
      if 8 < edge_pct then
        { edge_pct := edge_pct, recommendation := "STRONG UNDER ✓✓", color := "green" }
      else if 3 < edge_pct then
        { edge_pct := edge_pct, recommendation := "LEAN UNDER ✓", color := "blue" }
      else if -3 < edge_pct then
        { edge_pct := edge_pct, recommendation := "TOSS-UP", color := "orange" }
      else
        { edge_pct := edge_pct, recommendation := "PASS", color := "gray" }

end App

/-! ## app.py: hit-rate estimation (real-valued, uses `math.exp`) -/

/-- Python `round(x, 1)` on a real. -/
noncomputable def pyRound1R (x : ℝ) : ℝ := ((round (x * 10) : ℤ) : ℝ) / 10

/-- Python `round(x, 2)` on a real. -/
noncomputable def pyRound2R (x : ℝ) : ℝ := ((round (x * 100) : ℤ) : ℝ) / 100

/-- Python `round(x, 0)` on a real. -/
noncomputable def pyRound0R (x : ℝ) : ℝ := ((round x : ℤ) : ℝ)

namespace App

/-- The Abramowitz–Stegun polynomial factor of `normal_cdf`:
`(((((a5·t + a4)·t) + a3)·t + a2)·t + a1)·t` with the source's constants. -/
noncomputable def AS_poly (t : ℝ) : ℝ :=
  (((((1.061405429 * t + -1.453152027) * t) + 1.421413741) * t + -0.284496736) * t
      + 0.254829592) * t

/-- `normal_cdf` from `app.py` (Abramowitz–Stegun approximation 7.1.26). -/
noncomputable def normal_cdf (z : ℝ) : ℝ :=
  let p : ℝ := 0.3275911
  let sign : ℝ := if 0 ≤ z then 1 else -1
  let za := |z|
  let t := 1 / (1 + p * za)
  let y := 1 - AS_poly t * Real.exp (-za * za / 2)
  0.5 * (1 + sign * y)

/-- The decreasing factor of `normal_cdf` on nonnegative arguments:
`AS_poly (1/(1+p·u)) · exp(−u²/2)`. -/
noncomputable def AS_g (u : ℝ) : ℝ :=
  AS_poly (1 / (1 + 0.3275911 * u)) * Real.exp (-u * u / 2)

/-- Result shape of `app.estimate_hit_rate`.  The degenerate early return
omits some dict keys; those are `none` here.  `games_needed` keeps the two
numbers of the `f"{games_hit}/{games}"` string. -/
structure HitRateResult where
  hit_rate : ℝ
  hit_rate_pct : Option ℝ
  confidence : String
  games_needed : Option (ℤ × ℤ)
  std_dev_est : Option ℝ

/-- The hit-rate value computed by `estimate_hit_rate` before clamping and
rounding: the z-score of the line against the CV-based standard deviation,
pushed through `normal_cdf`. -/
noncomputable def raw_hit_rate (avg line : ℝ) (direction : String) : ℝ :=
  let cv : ℝ := if 20 ≤ avg then 0.28 else if 10 ≤ avg then 0.32 else 0.40
  let std_dev := avg * cv
  let z := (line - avg) / std_dev
  if direction = "OVER" then 1 - normal_cdf z else normal_cdf z

/-- `estimate_hit_rate` from `app.py`. -/
noncomputable def estimate_hit_rate (avg line : ℝ) (direction : String)
    (games : ℤ := 10) : HitRateResult :=
  if avg ≤ 0 ∨ line ≤ 0 then
    { hit_rate := 0.5, hit_rate_pct := none, confidence := "low",
      games_needed := none, std_dev_est := none }
  else
    let cv : ℝ := if 20 ≤ avg then 0.28 else if 10 ≤ avg then 0.32 else 0.40
    let std_dev := avg * cv
    let hit_rate := raw_hit_rate avg line direction
    let hit_rate := max 0.05 (min 0.95 hit_rate)
    let games_hit := round (hit_rate * (games : ℝ))
    let pct_diff := |avg - line| / line * 100
    let confidence :=
      if 15 ≤ pct_diff then "high" else if 8 ≤ pct_diff then "medium" else "low"
    { hit_rate := pyRound2R hit_rate
      hit_rate_pct := some (pyRound0R (hit_rate * 100))
      confidence := confidence
      games_needed := some (games_hit, games)
      std_dev_est := some (pyRound1R std_dev) }

end App

/-! ## Specification-side definitions for the corrected claims -/

/-- C2's scoring formula exactly as the claim states it: the `dvp_value ≤ 0`
guard is attached only to the `"WORST"` tier, the other tier always divides by
`max(recent_avg, 0.1)`. -/
def C2_claimed_score (tier : String) (recent_avg dvp_value : ℚ)
    (games_played : ℤ) : ℚ :=
  let ratio :=
    if tier = "WORST" then (if dvp_value ≤ 0 then 1 else recent_avg / dvp_value)
    else dvp_value / max recent_avg (1/10)
  pyRound1 (ratio * min ((games_played : ℚ) / 5) 1 * 100)

/-- C3's "number of plays available after the per-player cap": all plays when
the cap is `0`, otherwise each player contributes at most `max_player` plays. -/
def available_after_cap (plays : List Play) (max_player : ℕ) : ℕ :=
  if max_player = 0 then plays.length
  else ∑ k in (plays.map playerKey).toFinset,
    min ((plays.map playerKey).count k) max_player

/-- Rule (2) of the resolver claim: substring containment in either
direction. -/
def C7_rule2 (key db_key : String) : Bool :=
  strContains db_key.data key.data || strContains key.data db_key.data

/-- Rule (3) of the resolver claim: same last token and same first
character. -/
def C7_rule3 (key db_key : String) : Bool :=
  pyLastToken key.data == pyLastToken db_key.data &&
    pyFirstChar key.data == pyFirstChar db_key.data

/-- The resolver as the claim describes it: exact normalized match, then rule
(2) over **all** entries, then rule (3) over **all** entries. -/
def C7_rule_major {α : Type} (player_name : String)
    (stats_db : List (String × α)) : Option α :=
  let key := normalize_name player_name
  match stats_db.lookup key with
  | some stats => some stats
  | none =>
    match stats_db.find? (fun e => C7_rule2 key e.1) with
    | some e => some e.2
    | none => (stats_db.find? (fun e => C7_rule3 key e.1)).map Prod.snd

/-- The resolver as the source implements it: exact normalized match, then a
single pass over the entries in iteration order, testing rule (2) and then
rule (3) on each entry, first success winning. -/
def C7_entry_pass {α : Type} (player_name : String)
    (stats_db : List (String × α)) : Option α :=
  let key := normalize_name player_name
  match stats_db.lookup key with
  | some stats => some stats
  | none =>
    (stats_db.find? (fun e => C7_rule2 key e.1 || C7_rule3 key e.1)).map Prod.snd

/-! ## Concrete instances used by the claim theorems -/

/-- A minimal play used to build concrete counterexamples. -/
def basicPlay (pl st : String) : Play :=
  { player := pl, team := "", position := "", opponent := "", stat := st,
    dvp_value := 0, tier := "WORST" }

/-- An under-tier play with `dvp_value = 0`: the source's guard returns
ratio `1.0`, while C2's formula for non-`WORST` tiers returns ratio `0`. -/
def C2_bad_play : Play :=
  { player := "x", team := "", position := "", opponent := "", stat := "PTS",
    dvp_value := 0, tier := "BEST", recent_avg := some 10, games_played := some 5 }

/-- The worked example of C2: `recent_avg = 28.0`, `dvp_value = 24.8`,
`games_played = 8`, tier `WORST`. -/
def C2_example_play : Play :=
  { player := "x", team := "", position := "", opponent := "", stat := "PTS",
    dvp_value := 24.8, tier := "WORST", recent_avg := some 28,
    games_played := some 8 }

/-- A play list containing two equal plays for player `d`: three distinct
plays on the same stat push the equal pair into the overflow pass, where the
`p not in result` membership test silently drops the second copy. -/
def C3_dup_plays : List Play :=
  [basicPlay "a" "PTS", basicPlay "b" "PTS", basicPlay "c" "PTS",
   basicPlay "d" "PTS", basicPlay "d" "PTS"]

/-- A stats table on which entry order and rule order disagree: the first
entry matches only rule (3) for the query `"john smith"`, the second entry
matches rule (2). -/
def C7_db : List (String × ℕ) := [("jane smith", 1), ("john smith jr", 2)]

/-- Three pairwise-distinct plays used by the C3 witness. -/
def C3_witness_plays : List Play :=
  [basicPlay "a" "PTS", basicPlay "b" "PTS", basicPlay "c" "REB"]

/-- A favourable-matchup play with only one game in the window. -/
def C9_low_sample_play : Play :=
  { player := "y", team := "", position := "", opponent := "", stat := "PTS",
    dvp_value := 50, tier := "WORST", recent_avg := some 10,
    games_played := some 1 }

/-! # Theorems -/

/-! ## C1: blended projection -/

/-- C1: for every recent average `r`, matchup rating `d` and known
minutes-per-game `m > 0`, `calculate_projection` uses
`adjusted_dvp = d · min(m/48, 1)` and returns `round(0.6·r + 0.4·adjusted_dvp, 1)`;
when minutes are unknown (`none` or `0`) it uses the fixed share `30/48`; and
on `r = 28.0`, `d = 24.8`, `m = 31` the adjusted DVP rounds to `16.0` and the
projection is `23.2`. -/
theorem C1_projection_formula (r d : ℚ) (t : String) (m : ℚ) (hm : 0 < m) :
    calculate_projection r d t (some m) = pyRound1 (0.6 * r + 0.4 * (d * min (m / 48) 1))
      ∧ calculate_projection r d t none = pyRound1 (0.6 * r + 0.4 * (d * (30 / 48)))
      ∧ calculate_projection r d t (some 0) = pyRound1 (0.6 * r + 0.4 * (d * (30 / 48)))
      ∧ pyRound1 (24.8 * min ((31 : ℚ) / 48) 1) = 16
      ∧ calculate_projection 28 24.8 "WORST" (some 31) = 23.2 := by
  refine ⟨?_, ?_, ?_,
    by norm_num [pyRound1, round_eq],
    by norm_num [calculate_projection, pyRound1, round_eq]⟩
  · simp [calculate_projection, hm]
  · simp [calculate_projection]
  · simp [calculate_projection]

/-- Witness for C1 at `r = 28`, `d = 24.8`, `m = 31`. -/
theorem C1_projection_formula_witness :
    calculate_projection 28 24.8 "WORST" (some 31)
      = pyRound1 (0.6 * 28 + 0.4 * (24.8 * min ((31 : ℚ) / 48) 1)) :=
  (C1_projection_formula 28 24.8 "WORST" 31 (by norm_num)).1

/-! ## C2: play scoring -/

/-- C2 counterexample: on a non-`WORST` play with `dvp_value = 0` the source
guards the ratio to `1.0` and scores `100`, while the claim's formula
(`dvp_value / max(recent_avg, 0.1)` with no guard for that tier) scores `0`. -/
theorem C2_counterexample :
    score_play C2_bad_play = 100
      ∧ C2_claimed_score C2_bad_play.tier 10 C2_bad_play.dvp_value 5 = 0
      ∧ score_play C2_bad_play
          ≠ C2_claimed_score C2_bad_play.tier 10 C2_bad_play.dvp_value 5 := by
  have h : ("BEST" : String) ≠ "WORST" := by decide
  refine ⟨?_, ?_, ?_⟩ <;>
    norm_num [score_play, C2_claimed_score, C2_bad_play, performance_ratio,
      MIN_GAMES, pyRound1, round_eq, h]

/-- C2 (amended): for plays with recent data and `games_played ≥ MIN_GAMES`,
the score is `round(ratio · min(games/5, 1) · 100, 1)` where the ratio is
`recent_avg / dvp_value` for tier `WORST` and `dvp_value / max(recent_avg, 0.1)`
otherwise, with the guard `ratio = 1.0` when `dvp_value ≤ 0` applying to
**both** tiers; on `recent_avg = 28.0`, `dvp_value = 24.8`, `games_played = 8`
with tier `WORST` the score is `112.9`. -/
theorem C2_score_formula (p : Play) (a : ℚ) (g : ℤ)
    (ha : p.recent_avg = some a) (hg : p.games_played = some g)
    (hmin : MIN_GAMES ≤ g) :
    score_play p
        = pyRound1 (performance_ratio p.tier a p.dvp_value * min ((g : ℚ) / 5) 1 * 100)
      ∧ (p.tier = "WORST" → 0 < p.dvp_value →
          performance_ratio p.tier a p.dvp_value = a / p.dvp_value)
      ∧ (p.tier ≠ "WORST" → 0 < p.dvp_value →
          performance_ratio p.tier a p.dvp_value = p.dvp_value / max a (1/10))
      ∧ (p.dvp_value ≤ 0 → performance_ratio p.tier a p.dvp_value = 1)
      ∧ score_play C2_example_play = 112.9 := by
  refine ⟨?_, ?_, ?_, ?_,
    by norm_num [score_play, C2_example_play, performance_ratio, MIN_GAMES,
      pyRound1, round_eq]⟩
  · simp [score_play, ha, hg, if_neg (not_lt.mpr hmin)]
  · intro ht hd
    simp [performance_ratio, ht, hd]
  · intro ht hd
    simp [performance_ratio, ht, hd]
  · intro hd
    have : ¬ 0 < p.dvp_value := not_lt.mpr hd
    by_cases ht : p.tier = "WORST" <;> simp [performance_ratio, ht, this]

/-- Witness for C2 (amended) at the worked example play. -/
theorem C2_score_formula_witness :
    score_play C2_example_play
      = pyRound1 (performance_ratio C2_example_play.tier 28 C2_example_play.dvp_value
          * min ((8 : ℚ) / 5) 1 * 100) :=
  (C2_score_formula C2_example_play 28 8 rfl rfl (by decide)).1

/-! ## C4: Kelly staking -/

/-- C4: for every `(win_prob, decimal_odds)` pair (including
`decimal_odds ≤ 1`) the full Kelly fraction is
`clamp(0, 0.25, (b·p − q)/b)` with `b = decimal_odds − 1` (zero when
`b ≤ 0`), lies in `[0, 0.25]`, and the adjusted Kelly output equals the full
Kelly output times the staking fraction (default `0.25`). -/
theorem C4_kelly_bounds (win_prob decimal_odds fraction : ℚ) :
    0 ≤ App.kelly_full_frac win_prob decimal_odds
      ∧ App.kelly_full_frac win_prob decimal_odds ≤ 1/4
      ∧ (App.calculate_kelly win_prob decimal_odds fraction).kelly_full
          = App.kelly_full_frac win_prob decimal_odds * 100
      ∧ (App.calculate_kelly win_prob decimal_odds fraction).kelly_adjusted
          = (App.calculate_kelly win_prob decimal_odds fraction).kelly_full * fraction
      ∧ (App.calculate_kelly win_prob decimal_odds).fraction_used = 1/4 := by
  refine ⟨le_max_left _ _, ?_, rfl, ?_, by norm_num [App.calculate_kelly]⟩
  · exact max_le (by norm_num) ((min_le_right _ _).trans (by norm_num))
  · show App.kelly_full_frac win_prob decimal_odds * fraction * 100
      = App.kelly_full_frac win_prob decimal_odds * 100 * fraction
    ring

/-! ## C5: neutral defaults on zero or negative denominators -/

/-- C5 counterexample: an American odds value of `0` does **not** get a
neutral default — `american_to_decimal(0)` evaluates `100 / abs(0)` and
raises `ZeroDivisionError` (modelled as `none`). -/
theorem C5_counterexample : App.american_to_decimal 0 = none := rfl

/-- C5 (amended): a betting line `≤ 0` yields edge `0` in both edge
calculators, a decimal-odds value `≤ 0` yields implied probability `0.5`, a
`dvp_value ≤ 0` yields scoring ratio `1.0`, and those calculations never
raise; but an American odds value of `0` raises `ZeroDivisionError` in the
odds conversion (every nonzero input converts successfully). -/
theorem C5_neutral_defaults (d line projected a dvp : ℚ) (dir t : String)
    (play : Play) (o : ℤ) :
    (d ≤ 0 → App.decimal_to_implied_prob d = 1/2)
      ∧ (line ≤ 0 → (App.calculate_edge projected line dir).edge_pct = 0)
      ∧ (line ≤ 0 → ∀ pr, play.projected = some pr →
          (calculate_edge play line).edge_pct = some 0)
      ∧ (dvp ≤ 0 → performance_ratio t a dvp = 1)
      ∧ (o ≠ 0 → App.american_to_decimal o ≠ none) := by
  refine ⟨?_, ?_, ?_, ?_, ?_⟩
  · intro h; norm_num [App.decimal_to_implied_prob, h]
  · intro h; simp [App.calculate_edge, h]
  · intro h pr hpr
    have hline : ¬ 0 < line := not_lt.mpr h
    by_cases ht : play.tier = "WORST" <;>
      simp [calculate_edge, hpr, hline, ht]
  · intro h
    have : ¬ 0 < dvp := not_lt.mpr h
    by_cases ht : t = "WORST" <;> simp [performance_ratio, ht, this]
  · intro h
    rcases lt_trichotomy o 0 with hlt | rfl | hgt
    · simp [App.american_to_decimal, not_lt.mpr hlt.le, h]
    · exact absurd rfl h
    · simp [App.american_to_decimal, hgt]

/-- Witness for C5 (amended) at concrete degenerate inputs. -/
theorem C5_neutral_defaults_witness :
    App.decimal_to_implied_prob (-2) = 1/2
      ∧ (App.calculate_edge 25 0 "OVER").edge_pct = 0
      ∧ performance_ratio "WORST" 9 (-3) = 1
      ∧ App.american_to_decimal (-110) ≠ none := by
  obtain ⟨h1, h2, _, h4, h5⟩ :=
    C5_neutral_defaults (-2) 0 25 9 (-3) "OVER" "WORST" C2_bad_play (-110)
  exact ⟨h1 (by norm_num), h2 le_rfl, h4 (by norm_num), h5 (by norm_num)⟩

/-! ## C7 and C10: identity resolver -/

/-- An association-list lookup misses when no key equals the query. -/
theorem lookup_eq_none_of_keys_ne {α : Type} (k : String) :
    ∀ (db : List (String × α)), (∀ e ∈ db, e.1 ≠ k) → db.lookup k = none := by
  intro db
  induction db with
  | nil => intro _; rfl
  | cons e rest ih =>
    intro h
    obtain ⟨dbk, v⟩ := e
    have hk : dbk ≠ k := h (dbk, v) (List.mem_cons_self _ _)
    have hbeq : (k == dbk) = false := by
      simp [beq_iff_eq]
      exact fun hh => hk hh.symm
    simp only [List.lookup, hbeq]
    exact ih (fun e he => h e (List.mem_cons_of_mem _ he))

/-- The empty string is a substring of every string. -/
theorem strContains_nil_true (l : List Char) : strContains l [] = true := by
  simp [strContains, List.any_eq_true]
  exact ⟨0, Nat.succ_pos _⟩

/-- The fuzzy loop of `find_player_stats` is the first entry, in iteration
order, passing rule (2) or rule (3). -/
theorem fuzzy_find_eq_find? {α : Type} (key : String) (db : List (String × α)) :
    fuzzy_find key db
      = (db.find? (fun e => C7_rule2 key e.1 || C7_rule3 key e.1)).map Prod.snd := by
  induction db with
  | nil => rfl
  | cons e rest ih =>
    obtain ⟨dbk, s⟩ := e
    cases hA : (strContains dbk.data key.data || strContains key.data dbk.data) with
    | true => simp [fuzzy_find, List.find?_cons, C7_rule2, hA]
    | false =>
      by_cases h3 : pyLastToken key.data = pyLastToken dbk.data
          ∧ pyFirstChar key.data = pyFirstChar dbk.data
      · have hr3 : C7_rule3 key dbk = true := by
          simp [C7_rule3, Bool.and_eq_true, beq_iff_eq]
          exact h3
        simp [fuzzy_find, List.find?_cons, C7_rule2, hA, h3, hr3]
      · have hr3 : C7_rule3 key dbk = false := by
          rw [Bool.eq_false_iff]
          intro hc
          exact h3 (by simpa [C7_rule3, Bool.and_eq_true, beq_iff_eq] using hc)
        simp [fuzzy_find, List.find?_cons, C7_rule2, hA, h3, hr3, ih]

/-- C7 counterexample: on `C7_db` with query `"john smith"`, rule (2) matches
the second entry, so a resolver trying rule (2) over all entries before rule
(3) would return record `2`; the source interleaves the rules per entry and
returns record `1` (the first entry's rule-(3) match). -/
theorem C7_counterexample :
    find_player_stats "john smith" C7_db = some 1
      ∧ C7_rule_major "john smith" C7_db = some 2
      ∧ find_player_stats "john smith" C7_db
          ≠ C7_rule_major "john smith" C7_db := by
  refine ⟨by decide, by decide, by decide⟩

/-- C7 (amended): the resolver tries the exact normalized match first and
then makes a **single pass** over the entries in iteration order, testing
substring containment and then the surname-plus-first-character rule on each
entry, the first success winning (so an earlier entry matched by rule (3)
beats a later entry matched by rule (2)); it returns `none` when no entry
matches. -/
theorem C7_resolver_order {α : Type} (name : String) (db : List (String × α)) :
    find_player_stats name db = C7_entry_pass name db := by
  show (match db.lookup (normalize_name name) with
        | some stats => some stats
        | none => fuzzy_find (normalize_name name) db)
      = (match db.lookup (normalize_name name) with
        | some stats => some stats
        | none =>
          (db.find? fun e =>
            C7_rule2 (normalize_name name) e.1 || C7_rule3 (normalize_name name) e.1).map
            Prod.snd)
  cases db.lookup (normalize_name name) with
  | some s => rfl
  | none => exact fuzzy_find_eq_find? (normalize_name name) db

/-- C10: on a non-empty table whose keys are all non-empty, a query that
normalizes to the empty string returns the first record: the empty key fails
the exact lookup but passes substring containment against the very first
entry. -/
theorem C10_empty_key (α : Type) (name k0 : String) (v0 : α)
    (rest : List (String × α)) (hname : normalize_name name = "")
    (hkeys : ∀ e ∈ (k0, v0) :: rest, e.1 ≠ "") :
    find_player_stats name ((k0, v0) :: rest) = some v0 := by
  unfold find_player_stats
  rw [hname]
  simp only [lookup_eq_none_of_keys_ne "" _ hkeys]
  simp [fuzzy_find, strContains_nil_true]

/-- Witness for C10: a whitespace-only query against a one-entry table. -/
theorem C10_empty_key_witness :
    find_player_stats "   " [("lebron james", 7)] = some 7 :=
  C10_empty_key ℕ "   " "lebron james" 7 [] (by decide) (by decide)

/-! ## C8: name normalization -/

/-- Unpacking `Char.ofNat` on a valid codepoint. -/
theorem Char.toNat_ofNat_of_valid {n : ℕ} (h : n.isValidChar) :
    (Char.ofNat n).toNat = n := by
  simp [Char.ofNat, dif_pos h, Char.ofNatAux, Char.toNat, UInt32.toNat]

/-- ASCII lowercasing is idempotent on characters. -/
theorem toLower_toLower (c : Char) : c.toLower.toLower = c.toLower := by
  unfold Char.toLower
  by_cases h : c.toNat ≥ 65 ∧ c.toNat ≤ 90
  · rw [if_pos h]
    have hv : (c.toNat + 32).isValidChar := Or.inl (by omega)
    rw [if_neg]
    rw [Char.toNat_ofNat_of_valid hv]
    omega
  · simp only [if_neg h]

/-- `pyStrip` is a left strip followed by Mathlib's right strip. -/
theorem pyStrip_eq_rdropWhile (l : List Char) :
    pyStrip l
      = List.rdropWhile Char.isWhitespace (List.dropWhile Char.isWhitespace l) := rfl

/-- Stripping whitespace from both ends is idempotent. -/
theorem pyStrip_idem (l : List Char) : pyStrip (pyStrip l) = pyStrip l := by
  rw [pyStrip_eq_rdropWhile, pyStrip_eq_rdropWhile]
  have hX : List.dropWhile Char.isWhitespace (List.dropWhile Char.isWhitespace l)
      = List.dropWhile Char.isWhitespace l := List.dropWhile_idempotent _ _
  set X := List.dropWhile Char.isWhitespace l with hXdef
  have h1 : List.dropWhile Char.isWhitespace (List.rdropWhile Char.isWhitespace X)
      = List.rdropWhile Char.isWhitespace X := by
    rw [List.dropWhile_eq_self_iff]
    intro hl
    have hpre := List.rdropWhile_prefix Char.isWhitespace X
    have hne : List.rdropWhile Char.isWhitespace X ≠ [] := List.length_pos.mp hl
    have hXpos : 0 < X.length := Nat.lt_of_lt_of_le hl hpre.length_le
    have hhead := hpre.head hne
    rw [List.get_mk_zero, hhead]
    have h0 := List.dropWhile_eq_self_iff.mp hX hXpos
    rwa [List.get_mk_zero] at h0
  rw [h1, List.rdropWhile_idempotent]

/-- Characters of a stripped list come from the original list. -/
theorem mem_pyStrip {c : Char} {l : List Char} (h : c ∈ pyStrip l) : c ∈ l := by
  unfold pyStrip at h
  rw [List.mem_reverse] at h
  have h2 := (List.dropWhile_suffix Char.isWhitespace).subset h
  rw [List.mem_reverse] at h2
  exact (List.dropWhile_suffix Char.isWhitespace).subset h2

/-- Characters of a suffix-stripped list come from the original list. -/
theorem mem_stripSuffixes {c : Char} {l : List Char} (h : c ∈ stripSuffixes l) :
    c ∈ l := by
  unfold stripSuffixes at h
  generalize pySuffixes = sufs at h
  induction sufs generalizing l with
  | nil => exact h
  | cons s rest ih =>
    simp only [List.foldl_cons] at h
    have hmem := ih h
    by_cases hc : s.isSuffixOf l = true
    · rw [if_pos hc] at hmem
      exact List.take_subset _ _ hmem
    · rwa [if_neg hc] at hmem

/-- The suffix pass does nothing when none of the tokens is a suffix. -/
theorem stripSuffixes_eq_self {l : List Char}
    (h : ∀ suf ∈ pySuffixes, suf.isSuffixOf l = false) : stripSuffixes l = l := by
  unfold stripSuffixes
  generalize pySuffixes = sufs at h ⊢
  induction sufs with
  | nil => rfl
  | cons s rest ih =>
    have hhead := h s (List.mem_cons_self _ _)
    simp only [List.foldl_cons, hhead, Bool.false_eq_true, if_false]
    exact ih (fun suf hsuf => h suf (List.mem_cons_of_mem _ hsuf))

/-- The character list of a normalized name, unfolded. -/
theorem normalize_name_data (x : String) :
    (normalize_name x).data = pyStrip (stripSuffixes (pyStrip (pyLower x.data))) := by
  rw [normalize_name]

/-- A normalized name is already lowercase. -/
theorem normalize_name_lower_fixed (x : String) :
    pyLower (normalize_name x).data = (normalize_name x).data := by
  have hmem : ∀ c ∈ (normalize_name x).data, c.toLower = c := by
    intro c hc
    rw [normalize_name_data] at hc
    have h1 : c ∈ pyLower x.data :=
      mem_pyStrip (mem_stripSuffixes (mem_pyStrip hc))
    obtain ⟨c0, _, rfl⟩ := List.mem_map.mp h1
    exact toLower_toLower c0
  calc pyLower (normalize_name x).data
      = (normalize_name x).data.map id := List.map_congr_left hmem
    _ = (normalize_name x).data := List.map_id _

/-- A normalized name is already stripped. -/
theorem pyStrip_normalize_name (x : String) :
    pyStrip (normalize_name x).data = (normalize_name x).data := by
  rw [normalize_name_data]
  exact pyStrip_idem _

/-- C8 counterexample: `normalize` strips the suffixes in one fixed order, so
`"a inj q"` loses only `" q"` on the first pass and the now-exposed `" inj"`
on the second: normalization is not idempotent. -/
theorem C8_counterexample :
    normalize_name "a inj q" = "a inj"
      ∧ normalize_name (normalize_name "a inj q") = "a"
      ∧ normalize_name (normalize_name "a inj q") ≠ normalize_name "a inj q" := by
  refine ⟨rfl, rfl, by decide⟩

/-- C8 (amended): normalization is idempotent on every name whose normalized
form does not itself end with one of the injury-status tokens; it is not
idempotent in general, because stripping a later-ordered token can expose an
earlier-ordered one (for example `"a inj q"`). -/
theorem C8_idempotent_no_trailing_token (x : String)
    (h : ∀ suf ∈ pySuffixes, suf.isSuffixOf (normalize_name x).data = false) :
    normalize_name (normalize_name x) = normalize_name x := by
  have hdata : (normalize_name (normalize_name x)).data = (normalize_name x).data := by
    rw [normalize_name_data (normalize_name x), normalize_name_lower_fixed,
      pyStrip_normalize_name, stripSuffixes_eq_self h, pyStrip_normalize_name]
  exact String.ext hdata

/-- Witness for C8 (amended) at the name `" LeBron James "`. -/
theorem C8_idempotent_no_trailing_token_witness :
    normalize_name (normalize_name " LeBron James ") = normalize_name " LeBron James " :=
  C8_idempotent_no_trailing_token " LeBron James " (by decide)

/-! ## C9: insufficient sample exclusion -/

/-- Pass 1 of `diversify` only appends plays drawn from its pending list, in
order. -/
theorem diversify_pass1_append (n m : ℕ) :
    ∀ (pending res : List Play),
      ∃ l, diversify_pass1 n m res pending = res ++ l ∧ l.Sublist pending := by
  intro pending
  induction pending with
  | nil => exact fun res => ⟨[], by simp [diversify_pass1], List.nil_sublist _⟩
  | cons p rest ih =>
    intro res
    by_cases h1 : n ≤ res.length
    · exact ⟨[], by simp [diversify_pass1, h1], List.nil_sublist _⟩
    · by_cases h2 : 0 < m ∧ m ≤ keyCount (playerKey p) res
      · obtain ⟨l, hl, hsub⟩ := ih res
        exact ⟨l, by simp [diversify_pass1, h1, h2, hl], hsub.cons p⟩
      · by_cases h3 : statCount p.stat res < 3
        · obtain ⟨l, hl, hsub⟩ := ih (res ++ [p])
          refine ⟨p :: l, ?_, hsub.cons₂ p⟩
          simp [diversify_pass1, h1, h2, h3, hl]
        · obtain ⟨l, hl, hsub⟩ := ih res
          exact ⟨l, by simp [diversify_pass1, h1, h2, h3, hl], hsub.cons p⟩

/-- Pass 2 of `diversify` only appends plays drawn from its pending list, in
order. -/
theorem diversify_pass2_append (n m : ℕ) :
    ∀ (pending res : List Play),
      ∃ l, diversify_pass2 n m res pending = res ++ l ∧ l.Sublist pending := by
  intro pending
  induction pending with
  | nil => exact fun res => ⟨[], by simp [diversify_pass2], List.nil_sublist _⟩
  | cons p rest ih =>
    intro res
    by_cases h1 : n ≤ res.length
    · exact ⟨[], by simp [diversify_pass2, h1], List.nil_sublist _⟩
    · by_cases h2 : p ∈ res
      · obtain ⟨l, hl, hsub⟩ := ih res
        exact ⟨l, by simp [diversify_pass2, h1, h2, hl], hsub.cons p⟩
      · by_cases h3 : 0 < m ∧ m ≤ keyCount (playerKey p) res
        · obtain ⟨l, hl, hsub⟩ := ih res
          exact ⟨l, by simp [diversify_pass2, h1, h2, h3, hl], hsub.cons p⟩
        · obtain ⟨l, hl, hsub⟩ := ih (res ++ [p])
          refine ⟨p :: l, ?_, hsub.cons₂ p⟩
          simp [diversify_pass2, h1, h2, h3, hl]

/-- Every play returned by `diversify` comes from its input list. -/
theorem diversify_subset (l : List Play) (n m : ℕ) {q : Play}
    (hq : q ∈ diversify l n m) : q ∈ l := by
  unfold diversify at hq
  obtain ⟨l1, hl1, hsub1⟩ := diversify_pass1_append n m l []
  simp only [hl1, List.nil_append] at hq
  by_cases hlen : l1.length < n
  · rw [if_pos hlen] at hq
    obtain ⟨l2, hl2, hsub2⟩ := diversify_pass2_append n m l l1
    rw [hl2] at hq
    have := List.take_subset _ _ hq
    rcases List.mem_append.mp this with h | h
    · exact hsub1.subset h
    · exact hsub2.subset h
  · rw [if_neg hlen] at hq
    exact hsub1.subset (List.take_subset _ _ hq)

/-- The over list of `filter_top_plays`, unfolded. -/
theorem filter_top_plays_overs (plays : List Play) (tn mp : ℕ) :
    (filter_top_plays plays tn mp).overs
      = diversify
          (((plays.filter validPlay).filter (fun p => p.tier == "WORST")).insertionSort
            (fun a b => b.score ≤ a.score)) tn mp := rfl

/-- The under list of `filter_top_plays`, unfolded. -/
theorem filter_top_plays_unders (plays : List Play) (tn mp : ℕ) :
    (filter_top_plays plays tn mp).unders
      = diversify
          (((plays.filter validPlay).filter (fun p => p.tier == "BEST")).insertionSort
            (fun a b => b.score ≤ a.score)) tn mp := rfl

/-- C9: a play with fewer than `MIN_GAMES` games (or no recent average)
scores `0` and never appears in the over or under top-N lists, however
favourable its matchup rating; the raw play list itself is not touched by the
(non-destructive) filtering. -/
theorem C9_low_sample_excluded (plays : List Play) (p : Play) (tn mp : ℕ)
    (h : (∃ g, p.games_played = some g ∧ g < MIN_GAMES) ∨ p.recent_avg = none) :
    score_play p = 0
      ∧ p ∉ (filter_top_plays plays tn mp).overs
      ∧ p ∉ (filter_top_plays plays tn mp).unders := by
  have hvalid : validPlay p = false := by
    rcases h with ⟨g, hg, hlt⟩ | hnone
    · simp [validPlay, hg]
      intro _
      omega
    · simp [validPlay, hnone]
  have hscore : score_play p = 0 := by
    rcases h with ⟨g, hg, hlt⟩ | hnone
    · cases havg : p.recent_avg with
      | none => simp [score_play, havg]
      | some a => simp [score_play, havg, hg, hlt]
    · simp [score_play, hnone]
  refine ⟨hscore, ?_, ?_⟩
  · intro hq
    rw [filter_top_plays_overs] at hq
    have h1 := diversify_subset _ _ _ hq
    rw [List.mem_insertionSort] at h1
    have h2 := List.mem_filter.mp (List.mem_filter.mp h1).1
    rw [hvalid] at h2
    exact absurd h2.2 (by simp)
  · intro hq
    rw [filter_top_plays_unders] at hq
    have h1 := diversify_subset _ _ _ hq
    rw [List.mem_insertionSort] at h1
    have h2 := List.mem_filter.mp (List.mem_filter.mp h1).1
    rw [hvalid] at h2
    exact absurd h2.2 (by simp)

/-- Witness for C9: a one-game play with a huge matchup rating scores `0` and
is excluded from both top lists. -/
theorem C9_low_sample_excluded_witness :
    score_play C9_low_sample_play = 0
      ∧ C9_low_sample_play ∉ (filter_top_plays [C9_low_sample_play] 8 0).overs
      ∧ C9_low_sample_play ∉ (filter_top_plays [C9_low_sample_play] 8 0).unders :=
  C9_low_sample_excluded [C9_low_sample_play] C9_low_sample_play 8 0
    (Or.inl ⟨1, rfl, by decide⟩)

/-! ## C3: diversified selection -/

/-- Player-key counts add across list append. -/
theorem keyCount_append (k : String) (l1 l2 : List Play) :
    keyCount k (l1 ++ l2) = keyCount k l1 + keyCount k l2 := by
  simp [keyCount, List.count_append]

/-- Player-key count of a singleton. -/
theorem keyCount_singleton (k : String) (p : Play) :
    keyCount k [p] = if playerKey p = k then 1 else 0 := by
  by_cases h : playerKey p = k <;>
    simp [keyCount, h, List.count_cons, beq_iff_eq]

/-- Stat counts add across list append. -/
theorem statCount_append (s : String) (l1 l2 : List Play) :
    statCount s (l1 ++ l2) = statCount s l1 + statCount s l2 := by
  simp [statCount, List.count_append]

/-- Stat count of a singleton. -/
theorem statCount_singleton (s : String) (p : Play) :
    statCount s [p] = if p.stat = s then 1 else 0 := by
  by_cases h : p.stat = s <;>
    simp [statCount, h, List.count_cons, beq_iff_eq]

/-- Pass 1 preserves the per-player cap. -/
theorem diversify_pass1_keyCount (n m : ℕ) (hm : 0 < m) :
    ∀ (pending res : List Play) (k : String), keyCount k res ≤ m →
      keyCount k (diversify_pass1 n m res pending) ≤ m := by
  intro pending
  induction pending with
  | nil => intro res k h; simpa [diversify_pass1] using h
  | cons p rest ih =>
    intro res k h
    by_cases h1 : n ≤ res.length
    · simpa [diversify_pass1, h1] using h
    · by_cases h2 : 0 < m ∧ m ≤ keyCount (playerKey p) res
      · simp only [diversify_pass1, if_neg h1, if_pos h2]
        exact ih res k h
      · by_cases h3 : statCount p.stat res < 3
        · simp only [diversify_pass1, if_neg h1, if_neg h2, if_pos h3]
          apply ih
          rw [keyCount_append, keyCount_singleton]
          by_cases hk : playerKey p = k
          · have hlt : keyCount (playerKey p) res < m := by
              rcases Nat.lt_or_ge (keyCount (playerKey p) res) m with hh | hh
              · exact hh
              · exact absurd ⟨hm, hh⟩ h2
            rw [hk] at hlt
            simp [hk]
            omega
          · simp [hk]
            exact h
        · simp only [diversify_pass1, if_neg h1, if_neg h2, if_neg h3]
          exact ih res k h

/-- Pass 2 preserves the per-player cap. -/
theorem diversify_pass2_keyCount (n m : ℕ) (hm : 0 < m) :
    ∀ (pending res : List Play) (k : String), keyCount k res ≤ m →
      keyCount k (diversify_pass2 n m res pending) ≤ m := by
  intro pending
  induction pending with
  | nil => intro res k h; simpa [diversify_pass2] using h
  | cons p rest ih =>
    intro res k h
    by_cases h1 : n ≤ res.length
    · simpa [diversify_pass2, h1] using h
    · by_cases h2 : p ∈ res
      · simp only [diversify_pass2, if_neg h1, if_pos h2]
        exact ih res k h
      · by_cases h3 : 0 < m ∧ m ≤ keyCount (playerKey p) res
        · simp only [diversify_pass2, if_neg h1, if_neg h2, if_pos h3]
          exact ih res k h
        · simp only [diversify_pass2, if_neg h1, if_neg h2, if_neg h3]
          apply ih
          rw [keyCount_append, keyCount_singleton]
          by_cases hk : playerKey p = k
          · have hlt : keyCount (playerKey p) res < m := by
              rcases Nat.lt_or_ge (keyCount (playerKey p) res) m with hh | hh
              · exact hh
              · exact absurd ⟨hm, hh⟩ h3
            rw [hk] at hlt
            simp [hk]
            omega
          · simp [hk]
            exact h

/-- The diversified selection never holds more than `m` plays of one player
when `0 < m`. -/
theorem diversify_keyCount_le (plays : List Play) (n m : ℕ) (k : String)
    (hm : 0 < m) : keyCount k (diversify plays n m) ≤ m := by
  unfold diversify
  have hr1 : keyCount k (diversify_pass1 n m [] plays) ≤ m :=
    diversify_pass1_keyCount n m hm plays [] k (by simp [keyCount])
  have hr2 : keyCount k (if (diversify_pass1 n m [] plays).length < n
      then diversify_pass2 n m (diversify_pass1 n m [] plays) plays
      else diversify_pass1 n m [] plays) ≤ m := by
    split
    · exact diversify_pass2_keyCount n m hm plays _ k hr1
    · exact hr1
  refine le_trans ?_ hr2
  unfold keyCount
  exact ((List.take_sublist _ _).map playerKey).count_le _

/-- Pass 1 admits at most 3 plays per stat. -/
theorem diversify_pass1_statCount (n m : ℕ) :
    ∀ (pending res : List Play) (s : String), statCount s res ≤ 3 →
      statCount s (diversify_pass1 n m res pending) ≤ 3 := by
  intro pending
  induction pending with
  | nil => intro res s h; simpa [diversify_pass1] using h
  | cons p rest ih =>
    intro res s h
    by_cases h1 : n ≤ res.length
    · simpa [diversify_pass1, h1] using h
    · by_cases h2 : 0 < m ∧ m ≤ keyCount (playerKey p) res
      · simp only [diversify_pass1, if_neg h1, if_pos h2]
        exact ih res s h
      · by_cases h3 : statCount p.stat res < 3
        · simp only [diversify_pass1, if_neg h1, if_neg h2, if_pos h3]
          apply ih
          rw [statCount_append, statCount_singleton]
          by_cases hs : p.stat = s
          · rw [hs] at h3
            simp [hs]
            omega
          · simp [hs]
            exact h
        · simp only [diversify_pass1, if_neg h1, if_neg h2, if_neg h3]
          exact ih res s h

/-- Player-key counts as a `countP` over the play list. -/
theorem keyCount_eq_countP (k : String) (l : List Play) :
    keyCount k l = l.countP (fun q => playerKey q == k) := by
  simp only [keyCount, List.count, List.countP_map]
  rfl

/-- Player-key counts as a filtered length. -/
theorem keyCount_eq_filter_length (k : String) (l : List Play) :
    keyCount k l = (l.filter (fun q => playerKey q == k)).length := by
  rw [keyCount_eq_countP, List.countP_eq_length_filter]

/-- Pass 1 never grows the result beyond `n`. -/
theorem diversify_pass1_length_le (n m : ℕ) :
    ∀ (pending res : List Play), res.length ≤ n →
      (diversify_pass1 n m res pending).length ≤ n := by
  intro pending
  induction pending with
  | nil => intro res h; simpa [diversify_pass1] using h
  | cons p rest ih =>
    intro res h
    by_cases h1 : n ≤ res.length
    · simpa [diversify_pass1, h1] using h
    · by_cases h2 : 0 < m ∧ m ≤ keyCount (playerKey p) res
      · simp only [diversify_pass1, if_neg h1, if_pos h2]
        exact ih res h
      · by_cases h3 : statCount p.stat res < 3
        · simp only [diversify_pass1, if_neg h1, if_neg h2, if_pos h3]
          apply ih
          simp only [List.length_append, List.length_singleton]
          omega
        · simp only [diversify_pass1, if_neg h1, if_neg h2, if_neg h3]
          exact ih res h

/-- Pass 2 never grows the result beyond `n`. -/
theorem diversify_pass2_length_le (n m : ℕ) :
    ∀ (pending res : List Play), res.length ≤ n →
      (diversify_pass2 n m res pending).length ≤ n := by
  intro pending
  induction pending with
  | nil => intro res h; simpa [diversify_pass2] using h
  | cons p rest ih =>
    intro res h
    by_cases h1 : n ≤ res.length
    · simpa [diversify_pass2, h1] using h
    · by_cases h2 : p ∈ res
      · simp only [diversify_pass2, if_neg h1, if_pos h2]
        exact ih res h
      · by_cases h3 : 0 < m ∧ m ≤ keyCount (playerKey p) res
        · simp only [diversify_pass2, if_neg h1, if_neg h2, if_pos h3]
          exact ih res h
        · simp only [diversify_pass2, if_neg h1, if_neg h2, if_neg h3]
          apply ih
          simp only [List.length_append, List.length_singleton]
          omega

/-- Pass 2 preserves distinctness (it only appends plays not yet present). -/
theorem diversify_pass2_nodup (n m : ℕ) :
    ∀ (pending res : List Play), res.Nodup →
      (diversify_pass2 n m res pending).Nodup := by
  intro pending
  induction pending with
  | nil => intro res h; simpa [diversify_pass2] using h
  | cons p rest ih =>
    intro res h
    by_cases h1 : n ≤ res.length
    · simpa [diversify_pass2, h1] using h
    · by_cases h2 : p ∈ res
      · simp only [diversify_pass2, if_neg h1, if_pos h2]
        exact ih res h
      · by_cases h3 : 0 < m ∧ m ≤ keyCount (playerKey p) res
        · simp only [diversify_pass2, if_neg h1, if_neg h2, if_pos h3]
          exact ih res h
        · simp only [diversify_pass2, if_neg h1, if_neg h2, if_neg h3]
          apply ih
          rw [List.nodup_append]
          refine ⟨h, List.nodup_singleton p, ?_⟩
          intro a ha hb
          rw [List.mem_singleton] at hb
          subst hb
          exact h2 ha

/-- When pass 2 finishes below `n`, every pending play is either admitted or
blocked by the per-player cap. -/
theorem diversify_pass2_complete (n m : ℕ) :
    ∀ (pending res : List Play),
      n ≤ (diversify_pass2 n m res pending).length
        ∨ ∀ p ∈ pending, p ∈ diversify_pass2 n m res pending
            ∨ (0 < m ∧ m ≤ keyCount (playerKey p) (diversify_pass2 n m res pending)) := by
  intro pending
  induction pending with
  | nil =>
    intro res
    right
    intro p hp
    cases hp
  | cons p rest ih =>
    intro res
    by_cases h1 : n ≤ res.length
    · left
      simpa [diversify_pass2, h1] using h1
    · by_cases h2 : p ∈ res
      · simp only [diversify_pass2, if_neg h1, if_pos h2]
        rcases ih res with hlen | hall
        · exact Or.inl hlen
        · refine Or.inr (fun q hq => ?_)
          rcases List.mem_cons.mp hq with rfl | hq2
          · left
            obtain ⟨l, hl, _⟩ := diversify_pass2_append n m rest res
            rw [hl]
            exact List.mem_append_left _ h2
          · exact hall q hq2
      · by_cases h3 : 0 < m ∧ m ≤ keyCount (playerKey p) res
        · simp only [diversify_pass2, if_neg h1, if_neg h2, if_pos h3]
          rcases ih res with hlen | hall
          · exact Or.inl hlen
          · refine Or.inr (fun q hq => ?_)
            rcases List.mem_cons.mp hq with rfl | hq2
            · right
              obtain ⟨l, hl, _⟩ := diversify_pass2_append n m rest res
              refine ⟨h3.1, le_trans h3.2 ?_⟩
              rw [hl, keyCount_append]
              omega
            · exact hall q hq2
        · simp only [diversify_pass2, if_neg h1, if_neg h2, if_neg h3]
          rcases ih (res ++ [p]) with hlen | hall
          · exact Or.inl hlen
          · refine Or.inr (fun q hq => ?_)
            rcases List.mem_cons.mp hq with rfl | hq2
            · left
              obtain ⟨l, hl, _⟩ := diversify_pass2_append n m rest (res ++ [q])
              rw [hl]
              exact List.mem_append_left _
                (List.mem_append_right _ (List.mem_singleton.mpr rfl))
            · exact hall q hq2

/-- A play list's length is the sum of its per-player-key counts. -/
theorem length_eq_sum_keyCount (l : List Play) (s : Finset String)
    (hs : ∀ p ∈ l, playerKey p ∈ s) :
    l.length = ∑ k in s, keyCount k l := by
  have hms : ∀ a ∈ (↑(l.map playerKey) : Multiset String), a ∈ s := by
    intro a ha
    rw [Multiset.mem_coe, List.mem_map] at ha
    obtain ⟨p, hp, rfl⟩ := ha
    exact hs p hp
  have hsum := Multiset.sum_count_eq_card hms
  simp only [Multiset.coe_count, Multiset.coe_card, List.length_map] at hsum
  rw [← hsum]
  rfl

/-- A distinct, capped selection out of `plays` cannot exceed the number of
plays available after the per-player cap. -/
theorem length_le_available (out plays : List Play) (m : ℕ) (hnodup : out.Nodup)
    (hsub : ∀ q ∈ out, q ∈ plays) (hcap : ∀ k, 0 < m → keyCount k out ≤ m) :
    out.length ≤ available_after_cap plays m := by
  have hsp : List.Subperm out plays := hnodup.subperm hsub
  rcases Nat.eq_zero_or_pos m with rfl | hm
  · simpa [available_after_cap] using hsp.length_le
  · rw [available_after_cap, if_neg (Nat.pos_iff_ne_zero.mp hm)]
    have hkeys : ∀ p ∈ out, playerKey p ∈ (plays.map playerKey).toFinset := by
      intro p hp
      rw [List.mem_toFinset]
      exact List.mem_map_of_mem _ (hsub p hp)
    rw [length_eq_sum_keyCount out _ hkeys]
    apply Finset.sum_le_sum
    intro k hk
    have h1 : keyCount k out ≤ keyCount k plays := by
      rw [keyCount_eq_countP, keyCount_eq_countP]
      exact hsp.countP_le _
    exact le_min h1 (hcap k hm)

/-- `available_after_cap` for a positive cap, in `keyCount` form. -/
theorem available_after_cap_pos (plays : List Play) (m : ℕ) (hm : m ≠ 0) :
    available_after_cap plays m
      = ∑ k in (plays.map playerKey).toFinset, min (keyCount k plays) m := by
  rw [available_after_cap, if_neg hm]
  rfl

/-- On duplicate-free inputs, `diversify` returns exactly
`min n (available after the per-player cap)` plays. -/
theorem diversify_length_min (plays : List Play) (n m : ℕ) (hnd : plays.Nodup) :
    (diversify plays n m).length = min n (available_after_cap plays m) := by
  obtain ⟨l1, hl1, hsub1⟩ := diversify_pass1_append n m plays []
  have hr1sub : (diversify_pass1 n m [] plays).Sublist plays := by
    rw [hl1]
    simpa using hsub1
  have hr1nodup := hr1sub.nodup hnd
  have hr1len : (diversify_pass1 n m [] plays).length ≤ n :=
    diversify_pass1_length_le n m plays [] (Nat.zero_le n)
  have hr1cap : ∀ k, 0 < m → keyCount k (diversify_pass1 n m [] plays) ≤ m :=
    fun k hm => diversify_pass1_keyCount n m hm plays [] k (by simp [keyCount])
  by_cases hcase : (diversify_pass1 n m [] plays).length < n
  · have hdiv : diversify plays n m
        = (diversify_pass2 n m (diversify_pass1 n m [] plays) plays).take n := by
      simp only [diversify]
      rw [if_pos hcase]
    obtain ⟨l2, hl2, hsub2⟩ :=
      diversify_pass2_append n m plays (diversify_pass1 n m [] plays)
    set r2 := diversify_pass2 n m (diversify_pass1 n m [] plays) plays with hr2def
    have hr2sub : ∀ q ∈ r2, q ∈ plays := by
      intro q hq
      rw [hl2] at hq
      rcases List.mem_append.mp hq with h | h
      · exact hr1sub.subset h
      · exact hsub2.subset h
    have hr2nodup : r2.Nodup := diversify_pass2_nodup n m plays _ hr1nodup
    have hr2len : r2.length ≤ n :=
      diversify_pass2_length_le n m plays _ (le_of_lt hcase)
    have hr2cap : ∀ k, 0 < m → keyCount k r2 ≤ m :=
      fun k hm => diversify_pass2_keyCount n m hm plays _ k (hr1cap k hm)
    have htake : r2.take n = r2 := List.take_of_length_le hr2len
    rw [hdiv, htake]
    rcases eq_or_lt_of_le hr2len with heq | hlt
    · have havail : n ≤ available_after_cap plays m := by
        rw [← heq]
        exact length_le_available r2 plays m hr2nodup hr2sub hr2cap
      rw [heq]
      exact (min_eq_left havail).symm
    · rcases diversify_pass2_complete n m plays (diversify_pass1 n m [] plays)
        with hlen | hall
      · rw [← hr2def] at hlen
        omega
      · rw [← hr2def] at hall
        have hmain : r2.length = available_after_cap plays m := by
          rcases Nat.eq_zero_or_pos m with rfl | hm
          · have hallmem : ∀ p ∈ plays, p ∈ r2 := by
              intro p hp
              rcases hall p hp with h | h
              · exact h
              · exact absurd h.1 (lt_irrefl 0)
            have hperm : r2.Perm plays :=
              List.Subperm.antisymm (hr2nodup.subperm hr2sub) (hnd.subperm hallmem)
            simp [available_after_cap, hperm.length_eq]
          · have hkeq : ∀ k ∈ (plays.map playerKey).toFinset,
                keyCount k r2 = min (keyCount k plays) m := by
              intro k hk
              rw [List.mem_toFinset, List.mem_map] at hk
              obtain ⟨p0, hp0, rfl⟩ := hk
              have hle : keyCount (playerKey p0) r2 ≤ keyCount (playerKey p0) plays := by
                rw [keyCount_eq_countP, keyCount_eq_countP]
                exact (hr2nodup.subperm hr2sub).countP_le _
              have hcapk := hr2cap (playerKey p0) hm
              by_cases hfull : ∀ q ∈ plays, playerKey q = playerKey p0 → q ∈ r2
              · have hge : keyCount (playerKey p0) plays ≤ keyCount (playerKey p0) r2 := by
                  rw [keyCount_eq_filter_length, keyCount_eq_filter_length]
                  have hsubf : plays.filter (fun q => playerKey q == playerKey p0)
                      ⊆ r2.filter (fun q => playerKey q == playerKey p0) := by
                    intro q hq
                    rw [List.mem_filter] at hq ⊢
                    refine ⟨hfull q hq.1 ?_, hq.2⟩
                    simpa [beq_iff_eq] using hq.2
                  exact ((hnd.filter _).subperm hsubf).length_le
                omega
              · push_neg at hfull
                obtain ⟨q, hqp, hqk, hqnot⟩ := hfull
                rcases hall q hqp with h | h
                · exact absurd h hqnot
                · have hmle : m ≤ keyCount (playerKey p0) r2 := by
                    rw [← hqk]
                    exact h.2
                  omega
            have hkeys2 : ∀ p ∈ r2, playerKey p ∈ (plays.map playerKey).toFinset := by
              intro p hp
              rw [List.mem_toFinset]
              exact List.mem_map_of_mem _ (hr2sub p hp)
            rw [length_eq_sum_keyCount r2 _ hkeys2,
              available_after_cap_pos plays m (Nat.pos_iff_ne_zero.mp hm)]
            exact Finset.sum_congr rfl hkeq
        rw [hmain]
        have : available_after_cap plays m ≤ n := by
          rw [← hmain]
          exact le_of_lt hlt
        exact (min_eq_right this).symm
  · have hr1n : (diversify_pass1 n m [] plays).length = n :=
      le_antisymm hr1len (not_lt.mp hcase)
    have hdiv : diversify plays n m = (diversify_pass1 n m [] plays).take n := by
      simp only [diversify]
      rw [if_neg hcase]
    have htake : (diversify_pass1 n m [] plays).take n
        = diversify_pass1 n m [] plays := List.take_of_length_le (le_of_eq hr1n)
    have havail : n ≤ available_after_cap plays m := by
      rw [← hr1n]
      exact length_le_available _ plays m hr1nodup
        (fun q hq => hr1sub.subset hq) hr1cap
    rw [hdiv, htake, hr1n]
    exact (min_eq_left havail).symm

/-- C3 counterexample: on a list containing two equal plays, the overflow
pass's membership test drops the duplicate, so the output has 4 plays while
`min(n, available-after-cap)` counted with multiplicity is 5. -/
theorem C3_counterexample :
    (diversify C3_dup_plays 10 0).length = 4
      ∧ available_after_cap C3_dup_plays 0 = 5
      ∧ (diversify C3_dup_plays 10 0).length
          ≠ min 10 (available_after_cap C3_dup_plays 0) := by
  refine ⟨by decide, by decide, by decide⟩

/-- C3 (amended): `diversify` never returns more than `max_per_player` plays
for one player when the cap is positive (in particular at most 2 with
`n = 10, max_per_player = 2`), admits at most 3 plays per stat in the initial
pass, and on **duplicate-free** play lists returns exactly
`min n (available after the per-player cap)` plays. -/
theorem C3_diversify (plays : List Play) (n m : ℕ) :
    (∀ k, 0 < m → keyCount k (diversify plays n m) ≤ m)
      ∧ (∀ s, statCount s (diversify_pass1 n m [] plays) ≤ 3)
      ∧ (∀ k, keyCount k (diversify plays 10 2) ≤ 2)
      ∧ (plays.Nodup →
          (diversify plays n m).length = min n (available_after_cap plays m)) := by
  refine ⟨?_, ?_, ?_, diversify_length_min plays n m⟩
  · exact fun k hm => diversify_keyCount_le plays n m k hm
  · exact fun s => diversify_pass1_statCount n m plays [] s (by simp [statCount])
  · exact fun k => diversify_keyCount_le plays 10 2 k (by norm_num)

/-- Witness for C3 (amended) on three concrete distinct plays. -/
theorem C3_diversify_witness :
    keyCount "a" (diversify C3_witness_plays 10 2) ≤ 2
      ∧ (diversify C3_witness_plays 10 2).length
          = min 10 (available_after_cap C3_witness_plays 2) :=
  ⟨(C3_diversify C3_witness_plays 10 2).2.2.1 "a",
   (C3_diversify C3_witness_plays 10 2).2.2.2 (by decide)⟩

/-! ## C6: hit-rate estimation -/

/-- The Abramowitz–Stegun polynomial factor in expanded form. -/
theorem AS_poly_expand : App.AS_poly = fun t : ℝ =>
    1.061405429*t^5 + (-1.453152027)*t^4 + 1.421413741*t^3
      + (-0.284496736)*t^2 + 0.254829592*t := by
  funext t
  simp only [App.AS_poly]
  ring

/-- The degree-4 cofactor of `AS_poly` is positive on `[0, 1]`. -/
theorem AS_bracket_pos {t : ℝ} (h0 : 0 ≤ t) (h1 : t ≤ 1) :
    0 < 0.254829592 + (-0.284496736)*t + 1.421413741*t^2
        + (-1.453152027)*t^3 + 1.061405429*t^4 := by
  rcases le_total t (1/2) with hc | hc
  · nlinarith [mul_nonneg (mul_nonneg h0 h0) (by linarith : (0:ℝ) ≤ 1/2 - t),
      pow_two_nonneg (t*t), sq_nonneg (1.3896*t - 0.2845), sq_nonneg t]
  · nlinarith [mul_nonneg (mul_nonneg h0 h0) (by linarith : (0:ℝ) ≤ 1 - t),
      mul_nonneg (mul_nonneg (mul_nonneg h0 h0) h0) (by linarith : (0:ℝ) ≤ t - 1/2),
      sq_nonneg (0.4672*t - 0.2845), sq_nonneg t]

/-- The derivative of `AS_poly` is positive on `[0, 1]`. -/
theorem AS_deriv_pos {t : ℝ} (h0 : 0 ≤ t) (h1 : t ≤ 1) :
    0 < 0.254829592 + 2*(-0.284496736)*t + 3*1.421413741*t^2
        + 4*(-1.453152027)*t^3 + 5*1.061405429*t^4 := by
  rcases le_total t (1/2) with hc | hc
  · nlinarith [mul_nonneg (mul_nonneg h0 h0) (by linarith : (0:ℝ) ≤ 1/2 - t),
      pow_two_nonneg (t*t), sq_nonneg (2.7158*t - 0.569), sq_nonneg t]
  · nlinarith [mul_nonneg (mul_nonneg (mul_nonneg h0 h0) h0) (by linarith : (0:ℝ) ≤ t - 1/2),
      mul_nonneg (mul_nonneg h0 h0) (by linarith : (0:ℝ) ≤ 1 - t),
      sq_nonneg (2.2102*t - 0.569), sq_nonneg t]

/-- `AS_poly` is positive on `(0, 1]`. -/
theorem AS_poly_pos {t : ℝ} (h0 : 0 < t) (h1 : t ≤ 1) : 0 < App.AS_poly t := by
  rw [AS_poly_expand]
  have hb := AS_bracket_pos (le_of_lt h0) h1
  nlinarith [mul_pos h0 hb]

/-- `AS_poly` is bounded by `2.74` on `[0, 1]`. -/
theorem AS_poly_le {t : ℝ} (h0 : 0 ≤ t) (h1 : t ≤ 1) : App.AS_poly t ≤ 2.74 := by
  rw [AS_poly_expand]
  nlinarith [pow_nonneg h0 2, pow_nonneg h0 4,
    (pow_le_one₀ h0 h1 : t^5 ≤ 1), (pow_le_one₀ h0 h1 : t^3 ≤ 1), h1, h0,
    mul_nonneg (pow_nonneg h0 2) (sub_nonneg.mpr h1),
    mul_nonneg (pow_nonneg h0 4) (sub_nonneg.mpr h1)]

/-- The derivative of `AS_poly`. -/
theorem AS_poly_hasDerivAt (t : ℝ) :
    HasDerivAt App.AS_poly
      (0.254829592 + 2*(-0.284496736)*t + 3*1.421413741*t^2
        + 4*(-1.453152027)*t^3 + 5*1.061405429*t^4) t := by
  rw [AS_poly_expand]
  have h5 : HasDerivAt (fun x : ℝ => x^5) (5*t^4) t := by
    simpa using hasDerivAt_pow 5 t
  have h4 : HasDerivAt (fun x : ℝ => x^4) (4*t^3) t := by
    simpa using hasDerivAt_pow 4 t
  have h3 : HasDerivAt (fun x : ℝ => x^3) (3*t^2) t := by
    simpa using hasDerivAt_pow 3 t
  have h2 : HasDerivAt (fun x : ℝ => x^2) (2*t) t := by
    simpa using hasDerivAt_pow 2 t
  have h1 : HasDerivAt (fun x : ℝ => x) 1 t := hasDerivAt_id t
  have := ((((h5.const_mul (1.061405429:ℝ)).add
      (h4.const_mul (-1.453152027:ℝ))).add
      (h3.const_mul (1.421413741:ℝ))).add
      (h2.const_mul (-0.284496736:ℝ))).add
      (h1.const_mul (0.254829592:ℝ))
  convert this using 1
  ring

/-- `AS_poly` is strictly increasing on `[0, 1]`. -/
theorem AS_poly_strictMonoOn : StrictMonoOn App.AS_poly (Set.Icc (0:ℝ) 1) := by
  apply strictMonoOn_of_deriv_pos (convex_Icc 0 1)
  · rw [AS_poly_expand]
    fun_prop
  · intro x hx
    rw [interior_Icc] at hx
    rw [(AS_poly_hasDerivAt x).deriv]
    exact AS_deriv_pos (le_of_lt hx.1) (le_of_lt hx.2)

/-- The substitution `t = 1/(1 + p·u)` is positive for `u ≥ 0`. -/
theorem AS_t_pos {u : ℝ} (hu : 0 ≤ u) : 0 < 1 / (1 + 0.3275911 * u) := by
  have : (0:ℝ) < 1 + 0.3275911 * u := by nlinarith
  positivity

/-- The substitution `t = 1/(1 + p·u)` is at most `1` for `u ≥ 0`. -/
theorem AS_t_le_one {u : ℝ} (hu : 0 ≤ u) : 1 / (1 + 0.3275911 * u) ≤ 1 := by
  have h1 : (1:ℝ) ≤ 1 + 0.3275911 * u := by nlinarith
  have h0 : (0:ℝ) < 1 + 0.3275911 * u := by linarith
  rw [div_le_one h0]
  exact h1

/-- The substitution `t = 1/(1 + p·u)` strictly decreases in `u ≥ 0`. -/
theorem AS_t_anti {u1 u2 : ℝ} (h0 : 0 ≤ u1) (h : u1 < u2) :
    1 / (1 + 0.3275911 * u2) < 1 / (1 + 0.3275911 * u1) := by
  have ha : (0:ℝ) < 1 + 0.3275911 * u1 := by nlinarith
  have hb : 1 + 0.3275911 * u1 < 1 + 0.3275911 * u2 := by nlinarith
  exact one_div_lt_one_div_of_lt ha hb

/-- `AS_g` is positive on nonnegative arguments. -/
theorem AS_g_pos {u : ℝ} (hu : 0 ≤ u) : 0 < App.AS_g u := by
  unfold App.AS_g
  exact mul_pos (AS_poly_pos (AS_t_pos hu) (AS_t_le_one hu)) (Real.exp_pos _)

/-- `AS_g` strictly decreases on nonnegative arguments. -/
theorem AS_g_anti {u1 u2 : ℝ} (h0 : 0 ≤ u1) (h : u1 < u2) :
    App.AS_g u2 < App.AS_g u1 := by
  unfold App.AS_g
  have h0u2 : (0:ℝ) ≤ u2 := le_trans h0 (le_of_lt h)
  have ht2 := AS_t_pos h0u2
  have ht1le := AS_t_le_one h0
  have htlt := AS_t_anti h0 h
  have hA2pos : 0 < App.AS_poly (1 / (1 + 0.3275911 * u2)) :=
    AS_poly_pos ht2 (AS_t_le_one h0u2)
  have hAlt : App.AS_poly (1 / (1 + 0.3275911 * u2))
      < App.AS_poly (1 / (1 + 0.3275911 * u1)) :=
    AS_poly_strictMonoOn ⟨le_of_lt ht2, le_of_lt (lt_of_lt_of_le htlt ht1le)⟩
      ⟨le_of_lt (AS_t_pos h0), ht1le⟩ htlt
  have hE2pos : 0 < Real.exp (-u2 * u2 / 2) := Real.exp_pos _
  have hElt : Real.exp (-u2 * u2 / 2) < Real.exp (-u1 * u1 / 2) := by
    apply Real.exp_lt_exp.mpr
    nlinarith
  calc App.AS_poly (1 / (1 + 0.3275911 * u2)) * Real.exp (-u2 * u2 / 2)
      < App.AS_poly (1 / (1 + 0.3275911 * u1)) * Real.exp (-u2 * u2 / 2) :=
        mul_lt_mul_of_pos_right hAlt hE2pos
    _ < App.AS_poly (1 / (1 + 0.3275911 * u1)) * Real.exp (-u1 * u1 / 2) :=
        mul_lt_mul_of_pos_left hElt (lt_trans hA2pos hAlt)

/-- `AS_g 0` is the sum of the five A&S constants. -/
theorem AS_g_zero : App.AS_g 0 = 0.999999999 := by
  unfold App.AS_g App.AS_poly
  norm_num

/-- `AS_g` stays below its value at `0`. -/
theorem AS_g_le_of_nonneg {u : ℝ} (hu : 0 ≤ u) : App.AS_g u ≤ 0.999999999 := by
  rcases eq_or_lt_of_le hu with rfl | hlt
  · rw [AS_g_zero]
  · rw [← AS_g_zero]
    exact le_of_lt (AS_g_anti le_rfl hlt)

/-- `normal_cdf` on nonnegative arguments, via `AS_g`. -/
theorem normal_cdf_of_nonneg {z : ℝ} (hz : 0 ≤ z) :
    App.normal_cdf z = 1 - App.AS_g z / 2 := by
  unfold App.normal_cdf App.AS_g
  rw [if_pos hz, abs_of_nonneg hz]
  ring

/-- `normal_cdf` on negative arguments, via `AS_g`. -/
theorem normal_cdf_of_neg {z : ℝ} (hz : z < 0) :
    App.normal_cdf z = App.AS_g (-z) / 2 := by
  unfold App.normal_cdf App.AS_g
  rw [if_neg (not_le.mpr hz), abs_of_neg hz]
  ring_nf

/-- The Abramowitz–Stegun CDF approximation is strictly increasing. -/
theorem normal_cdf_strictMono : StrictMono App.normal_cdf := by
  intro z1 z2 h
  rcases le_or_lt 0 z1 with h1 | h1
  · have h2 : (0:ℝ) ≤ z2 := le_trans h1 (le_of_lt h)
    rw [normal_cdf_of_nonneg h1, normal_cdf_of_nonneg h2]
    have := AS_g_anti h1 h
    linarith
  · rcases le_or_lt 0 z2 with h2 | h2
    · rw [normal_cdf_of_neg h1, normal_cdf_of_nonneg h2]
      have hga : App.AS_g (-z1) < App.AS_g 0 := AS_g_anti le_rfl (by linarith)
      have hgb : App.AS_g z2 ≤ 0.999999999 := AS_g_le_of_nonneg h2
      rw [AS_g_zero] at hga
      linarith
    · rw [normal_cdf_of_neg h1, normal_cdf_of_neg h2]
      have := AS_g_anti (by linarith : (0:ℝ) ≤ -z2) (by linarith : -z2 < -z1)
      linarith

/-- The unclamped OVER hit rate, unfolded. -/
theorem raw_hit_rate_eq (avg line : ℝ) :
    App.raw_hit_rate avg line "OVER"
      = 1 - App.normal_cdf ((line - avg) /
          (avg * (if 20 ≤ avg then 0.28 else if 10 ≤ avg then 0.32 else 0.40))) := by
  unfold App.raw_hit_rate
  simp

/-- The unclamped OVER hit rate strictly decreases as the line rises. -/
theorem raw_hit_rate_anti {avg l1 l2 : ℝ} (ha : 0 < avg) (h : l1 < l2) :
    App.raw_hit_rate avg l2 "OVER" < App.raw_hit_rate avg l1 "OVER" := by
  rw [raw_hit_rate_eq, raw_hit_rate_eq]
  have hcv : (0:ℝ) < (if 20 ≤ avg then 0.28 else if 10 ≤ avg then 0.32 else 0.40) := by
    split_ifs <;> norm_num
  have hstd : (0:ℝ) < avg * (if 20 ≤ avg then 0.28 else if 10 ≤ avg then 0.32 else 0.40) :=
    mul_pos ha hcv
  have hz : (l1 - avg) / (avg * (if 20 ≤ avg then 0.28 else if 10 ≤ avg then 0.32 else 0.40))
      < (l2 - avg) / (avg * (if 20 ≤ avg then 0.28 else if 10 ≤ avg then 0.32 else 0.40)) :=
    (div_lt_div_right hstd).mpr (by linarith)
  have := normal_cdf_strictMono hz
  linarith

/-- `round` is monotone on the reals. -/
theorem round_mono_real {x y : ℝ} (h : x ≤ y) : round x ≤ round y := by
  rw [round_eq, round_eq]
  exact Int.floor_le_floor (by linarith)

/-- Rounding to two decimals is monotone. -/
theorem pyRound2R_mono {x y : ℝ} (h : x ≤ y) : pyRound2R x ≤ pyRound2R y := by
  unfold pyRound2R
  have h100 : x * 100 ≤ y * 100 := by linarith
  have := round_mono_real h100
  have hcast : ((round (x * 100) : ℤ) : ℝ) ≤ ((round (y * 100) : ℤ) : ℝ) :=
    Int.cast_le.mpr this
  linarith

/-- The returned `hit_rate` on valid inputs: clamp then round. -/
theorem estimate_hit_rate_valid (avg line : ℝ) (dir : String) (g : ℤ)
    (ha : 0 < avg) (hl : 0 < line) :
    (App.estimate_hit_rate avg line dir g).hit_rate
      = pyRound2R (max 0.05 (min 0.95 (App.raw_hit_rate avg line dir))) := by
  unfold App.estimate_hit_rate
  rw [if_neg]
  push_neg
  exact ⟨ha, hl⟩

/-- Far in the tail (`u ≥ 8`), `AS_g` is small. -/
theorem AS_g_lt_of_big {u : ℝ} (hu : 8 ≤ u) : App.AS_g u < 0.1 := by
  unfold App.AS_g
  have hu0 : (0:ℝ) ≤ u := by linarith
  have hA := AS_poly_le (le_of_lt (AS_t_pos hu0)) (AS_t_le_one hu0)
  have hx : (32:ℝ) ≤ u * u / 2 := by nlinarith
  have hexp : (33:ℝ) ≤ Real.exp (u * u / 2) := by
    have := Real.add_one_le_exp (u * u / 2)
    linarith
  have hE : Real.exp (-u * u / 2) ≤ 1/33 := by
    have heq : Real.exp (-u * u / 2) = (Real.exp (u * u / 2))⁻¹ := by
      rw [← Real.exp_neg]
      ring_nf
    rw [heq]
    have := inv_le_inv_of_le (by norm_num : (0:ℝ) < 33) hexp
    linarith
  have hEnn : (0:ℝ) ≤ Real.exp (-u * u / 2) := le_of_lt (Real.exp_pos _)
  calc App.AS_poly (1 / (1 + 0.3275911 * u)) * Real.exp (-u * u / 2)
      ≤ 2.74 * Real.exp (-u * u / 2) := mul_le_mul_of_nonneg_right hA hEnn
    _ ≤ 2.74 * (1/33) := by nlinarith
    _ < 0.1 := by norm_num

/-- With `avg = 20`, a line far above the average drives the unclamped OVER
hit rate below the `0.05` clamp. -/
theorem raw_small {line : ℝ} (h8 : 8 ≤ (line - 20) / (20 * 0.28)) :
    App.raw_hit_rate 20 line "OVER" < 0.05 := by
  rw [raw_hit_rate_eq]
  rw [if_pos (by norm_num : (20:ℝ) ≤ 20)]
  rw [normal_cdf_of_nonneg (by linarith)]
  have := AS_g_lt_of_big h8
  linarith

/-- C6 counterexample: at `avg = 20` the lines `100` and `101` both clamp to
`0.05`, so the returned OVER hit-rate estimate is **not** strictly decreasing
in the line. -/
theorem C6_counterexample :
    (App.estimate_hit_rate 20 101 "OVER" 10).hit_rate
        = (App.estimate_hit_rate 20 100 "OVER" 10).hit_rate
      ∧ (100:ℝ) < 101 := by
  have h100 : App.raw_hit_rate 20 100 "OVER" < 0.05 := raw_small (by norm_num)
  have h101 : App.raw_hit_rate 20 101 "OVER" < 0.05 := raw_small (by norm_num)
  rw [estimate_hit_rate_valid 20 101 "OVER" 10 (by norm_num) (by norm_num),
    estimate_hit_rate_valid 20 100 "OVER" 10 (by norm_num) (by norm_num)]
  refine ⟨?_, by norm_num⟩
  have e1 : max 0.05 (min 0.95 (App.raw_hit_rate 20 101 "OVER")) = 0.05 := by
    rw [min_eq_right (by linarith), max_eq_left (by linarith)]
  have e0 : max 0.05 (min 0.95 (App.raw_hit_rate 20 100 "OVER")) = 0.05 := by
    rw [min_eq_right (by linarith), max_eq_left (by linarith)]
  rw [e1, e0]

/-- The unclamped OVER hit rate at `avg = line = 20`. -/
theorem raw_at_center : App.raw_hit_rate 20 20 "OVER" = 0.4999999995 := by
  rw [raw_hit_rate_eq]
  rw [if_pos (by norm_num : (20:ℝ) ≤ 20)]
  norm_num
  rw [normal_cdf_of_nonneg le_rfl, AS_g_zero]
  norm_num

/-- C6 (amended): `estimate_hit_rate(avg=20, line=20, OVER)` returns exactly
`0.5`; for every fixed `avg > 0`, increasing the line strictly decreases the
hit-rate estimate **before** clamping, and the returned estimate (clamped to
`[0.05, 0.95]` and rounded to two decimals) is non-increasing in the line. -/
theorem C6_hit_rate (avg l1 l2 : ℝ) (havg : 0 < avg) (hl1 : 0 < l1)
    (h12 : l1 < l2) :
    (App.estimate_hit_rate 20 20 "OVER" 10).hit_rate = 0.5
      ∧ App.raw_hit_rate avg l2 "OVER" < App.raw_hit_rate avg l1 "OVER"
      ∧ (App.estimate_hit_rate avg l2 "OVER" 10).hit_rate
          ≤ (App.estimate_hit_rate avg l1 "OVER" 10).hit_rate := by
  refine ⟨?_, raw_hit_rate_anti havg h12, ?_⟩
  · rw [estimate_hit_rate_valid 20 20 "OVER" 10 (by norm_num) (by norm_num),
      raw_at_center]
    rw [min_eq_right (by norm_num), max_eq_right (by norm_num)]
    unfold pyRound2R
    have hfl : round ((0.4999999995 : ℝ) * 100) = 50 := by
      rw [round_eq]
      have : ⌊(50.49999995 : ℝ)⌋ = 50 := by
        apply Int.floor_eq_iff.mpr
        constructor <;> norm_num
      rw [show (0.4999999995 : ℝ) * 100 + 1/2 = 50.49999995 by norm_num, this]
    rw [hfl]
    norm_num
  · rw [estimate_hit_rate_valid avg l2 "OVER" 10 havg (lt_trans hl1 h12),
      estimate_hit_rate_valid avg l1 "OVER" 10 havg hl1]
    apply pyRound2R_mono
    exact max_le_max le_rfl
      (min_le_min le_rfl (le_of_lt (raw_hit_rate_anti havg h12)))

/-- Witness for C6 (amended) at `avg = 20`, lines `20 < 21`. -/
theorem C6_hit_rate_witness :
    (App.estimate_hit_rate 20 20 "OVER" 10).hit_rate = 0.5
      ∧ App.raw_hit_rate 20 21 "OVER" < App.raw_hit_rate 20 20 "OVER"
      ∧ (App.estimate_hit_rate 20 21 "OVER" 10).hit_rate
          ≤ (App.estimate_hit_rate 20 20 "OVER" 10).hit_rate :=
  C6_hit_rate 20 20 21 (by norm_num) (by norm_num) (by norm_num)
